import Mathlib

/-!
Verification of the variant-record normalization library (`record.rs`,
`errors.rs`, `lib.rs`).

Strings are modelled as `List Char` (all symbols of interest are ASCII, so
Rust byte indices and character indices coincide).  The `u64` position is a
`Nat`; the one arithmetic operation performed on it (`position + i as u64`)
is modelled with an explicit reduction modulo `2 ^ 64`, matching wrapping
64-bit unsigned addition.
-/

namespace VcfLib

/-- The error enum of `errors.rs`.  The two invalid-symbol variants carry the
offending allele string. -/
inductive Error where
  | RefBasesEmptyError : Error
  | AltBasesEmptyError : Error
  | RefBasesInvalidSymbolError : List Char → Error
  | AltBasesInvalidSymbolError : List Char → Error
deriving DecidableEq

/-- The `VariantType` enum of `lib.rs`. -/
inductive VariantType where
  | SNV : VariantType
  | Deletion : VariantType
  | Insertion : VariantType
  | Indel : VariantType
  | MNV : VariantType
deriving DecidableEq

/-- The character class of the validation regex `\A[ACGTURYKMSWBDHVN]+\z`. -/
def ALLOWED_SYMBOLS : List Char :=
  ['A', 'C', 'G', 'T', 'U', 'R', 'Y', 'K', 'M', 'S', 'W', 'B', 'D', 'H', 'V', 'N']

/-- `REGEX_ALLELES.is_match`: the anchored regex `\A[ACGTURYKMSWBDHVN]+\z`
matches exactly the non-empty strings all of whose characters lie in the
class. -/
def regex_alleles_match (s : List Char) : Bool :=
  !s.isEmpty && s.all fun c => decide (c ∈ ALLOWED_SYMBOLS)

/-- `count_shared` of `record.rs`: advance both iterators in lock step,
counting consecutive equal characters, stopping at the first mismatch or when
either iterator is exhausted. -/
def count_shared : List Char → List Char → Nat
  | c1 :: r, c2 :: a => if c1 = c2 then count_shared r a + 1 else 0
  | _, _ => 0

/-- Modulus of 64-bit unsigned arithmetic. -/
def U64_MOD : Nat := 2 ^ 64

/-- `trim_trailing_shared_bases` of `record.rs`: count the shared suffix on
the reversed strings, cut `i` characters from the right of each string, and
if either cut would empty its string keep one more character on both sides. -/
def trim_trailing_shared_bases (reference alternate : List Char) :
    List Char × List Char :=
  let i := count_shared reference.reverse alternate.reverse
  let p1 := reference.length - i
  let p2 := alternate.length - i
  if p1 = 0 ∨ p2 = 0 then
    (reference.take (p1 + 1), alternate.take (p2 + 1))
  else
    (reference.take p1, alternate.take p2)

/-- `trim_leading_shared_bases` of `record.rs`: count the shared prefix, and
if it covers all of either string reduce it by one; drop that many leading
characters from both strings and add the count to the position (u64
addition). -/
def trim_leading_shared_bases (position : Nat) (reference alternate : List Char) :
    Nat × List Char × List Char :=
  let i0 := count_shared reference alternate
  let i := if i0 = reference.length ∨ i0 = alternate.length then i0 - 1 else i0
  ((position + i) % U64_MOD, reference.drop i, alternate.drop i)

/-- `normalize` of `record.rs`: validate both alleles (fail fast with the
matching error), then trim shared trailing bases, then shared leading
bases. -/
def normalize (position : Nat) (reference alternate : List Char) :
    Except Error (Nat × List Char × List Char) :=
  if reference.length = 0 then
    Except.error Error.RefBasesEmptyError
  else if alternate.length = 0 then
    Except.error Error.AltBasesEmptyError
  else if regex_alleles_match reference = false then
    Except.error (Error.RefBasesInvalidSymbolError reference)
  else if regex_alleles_match alternate = false then
    Except.error (Error.AltBasesInvalidSymbolError alternate)
  else
    let (r, a) := trim_trailing_shared_bases reference alternate
    Except.ok (trim_leading_shared_bases position r a)

/-- `variant_type` of `record.rs`.  the Rust comparison `r.get(0..1) == a.get(0..1)` is
`List.take 1` equality (first characters, ASCII model). -/
def variant_type (reference alternate : List Char) : Option VariantType :=
  if reference.length = 1 ∧ alternate.length = 1 ∧ alternate ≠ reference then
    some VariantType.SNV
  else if reference.length = alternate.length ∧ alternate ≠ reference then
    some VariantType.MNV
  else if reference.length = 1 ∧ alternate.length > 1 ∧
      reference.take 1 = alternate.take 1 then
    some VariantType.Insertion
  else if alternate.length = 1 ∧ reference.length > 1 ∧
      reference.take 1 = alternate.take 1 then
    some VariantType.Deletion
  else if reference.length ≠ alternate.length then
    some VariantType.Indel
  else
    none

/-! Spec-side counting helpers, written in the words of the specification so
the claim statements can refer to them. -/

/-- The number of consecutive equal symbols counted from the right ends of
the two strings (stopping at the first mismatch or when the shorter string is
exhausted). -/
def sharedSuffixLen (reference alternate : List Char) : Nat :=
  count_shared reference.reverse alternate.reverse

/-- The trailing trim count `t` as stated by the specification: `s - 1` when
`s` equals the length of either string, `s` otherwise. -/
def specTrailingTrimCount (reference alternate : List Char) : Nat :=
  let s := sharedSuffixLen reference alternate
  if s = reference.length ∨ s = alternate.length then s - 1 else s

/-- The number of consecutive equal symbols counted from the left ends of the
two strings. -/
def sharedPrefixLen (reference alternate : List Char) : Nat :=
  count_shared reference alternate

/-- The leading trim count `k` as stated by the specification: `p - 1` when
`p` equals the length of either string, `p` otherwise. -/
def specLeadingTrimCount (reference alternate : List Char) : Nat :=
  let p := sharedPrefixLen reference alternate
  if p = reference.length ∨ p = alternate.length then p - 1 else p

/-- The classification rules exactly as the specification words them, in
priority order with first match winning, first symbols compared through
`head?`. -/
def variantTypeSpec (reference alternate : List Char) : Option VariantType :=
  if reference.length = 1 ∧ alternate.length = 1 ∧ alternate ≠ reference then
    some VariantType.SNV
  else if reference.length = alternate.length ∧ alternate ≠ reference then
    some VariantType.MNV
  else if reference.length = 1 ∧ 1 < alternate.length ∧
      reference.head? = alternate.head? then
    some VariantType.Insertion
  else if alternate.length = 1 ∧ 1 < reference.length ∧
      reference.head? = alternate.head? then
    some VariantType.Deletion
  else if reference.length ≠ alternate.length then
    some VariantType.Indel
  else
    none

/-! ### Basic lemmas about `count_shared` -/

theorem count_shared_nil_left (l : List Char) : count_shared [] l = 0 := by
  cases l <;> rfl

theorem count_shared_nil_right (l : List Char) : count_shared l [] = 0 := by
  cases l <;> rfl

theorem count_shared_cons (c1 c2 : Char) (r a : List Char) :
    count_shared (c1 :: r) (c2 :: a) =
      if c1 = c2 then count_shared r a + 1 else 0 := rfl

theorem count_shared_le_left :
    ∀ r a : List Char, count_shared r a ≤ r.length := by
  intro r
  induction r with
  | nil => intro a; rw [count_shared_nil_left]; exact Nat.zero_le _
  | cons c r ih =>
    intro a
    cases a with
    | nil => rw [count_shared_nil_right]; exact Nat.zero_le _
    | cons d a =>
      rw [count_shared_cons]
      by_cases h : c = d
      · simp only [h, if_pos rfl, List.length_cons]
        exact Nat.succ_le_succ (ih a)
      · simp only [if_neg h]
        exact Nat.zero_le _

theorem count_shared_le_right :
    ∀ r a : List Char, count_shared r a ≤ a.length := by
  intro r
  induction r with
  | nil => intro a; rw [count_shared_nil_left]; exact Nat.zero_le _
  | cons c r ih =>
    intro a
    cases a with
    | nil => rw [count_shared_nil_right]; exact Nat.zero_le _
    | cons d a =>
      rw [count_shared_cons]
      by_cases h : c = d
      · simp only [h, if_pos rfl, List.length_cons]
        exact Nat.succ_le_succ (ih a)
      · simp only [if_neg h]
        exact Nat.zero_le _

theorem count_shared_self : ∀ l : List Char, count_shared l l = l.length := by
  intro l
  induction l with
  | nil => rfl
  | cons c l ih => rw [count_shared_cons, if_pos rfl, ih]; rfl

/-- Up to the shared count, the two strings agree. -/
theorem count_shared_take :
    ∀ r a : List Char, r.take (count_shared r a) = a.take (count_shared r a) := by
  intro r
  induction r with
  | nil => intro a; rw [count_shared_nil_left]; simp
  | cons c r ih =>
    intro a
    cases a with
    | nil => rw [count_shared_nil_right]; simp
    | cons d a =>
      rw [count_shared_cons]
      by_cases h : c = d
      · subst h
        rw [if_pos rfl]
        simp only [List.take_succ_cons]
        rw [ih a]
      · simp only [if_neg h, List.take_zero]

/-- At the shared count, when both strings continue, the characters differ. -/
theorem count_shared_mismatch :
    ∀ r a : List Char, count_shared r a < r.length → count_shared r a < a.length →
      r[count_shared r a]? ≠ a[count_shared r a]? := by
  intro r
  induction r with
  | nil => intro a h1 _; simp at h1
  | cons c r ih =>
    intro a
    cases a with
    | nil => intro _ h2; simp at h2
    | cons d a =>
      rw [count_shared_cons]
      by_cases h : c = d
      · subst h
        rw [if_pos rfl]
        simp only [List.length_cons, Nat.add_lt_add_iff_right,
          List.getElem?_cons_succ]
        intro h1 h2
        exact ih a h1 h2
      · intro _ _
        simp only [if_neg h, List.getElem?_cons_zero]
        intro hc
        exact h (Option.some.inj hc)

/-- Below the shared count, the two strings hold the same character. -/
theorem count_shared_getElem (r a : List Char) (j : Nat)
    (hj : j < count_shared r a) : r[j]? = a[j]? := by
  have h := count_shared_take r a
  have h1 : (r.take (count_shared r a))[j]? = r[j]? := by
    rw [List.getElem?_take, if_pos hj]
  have h2 : (a.take (count_shared r a))[j]? = a[j]? := by
    rw [List.getElem?_take, if_pos hj]
  rw [← h1, h, h2]

theorem count_shared_eq_zero_of_head_ne (r a : List Char)
    (h : r.head? ≠ a.head?) : count_shared r a = 0 := by
  cases r with
  | nil => exact count_shared_nil_left a
  | cons c r =>
    cases a with
    | nil => exact count_shared_nil_right _
    | cons d a =>
      rw [count_shared_cons, if_neg]
      intro hc
      exact h (by rw [List.head?_cons, List.head?_cons, hc])

theorem count_shared_eq_one (r a : List Char) (hr : r ≠ [])
    (hh : r.head? = a.head?) (hlen : r.length = 1 ∨ a.length = 1) :
    count_shared r a = 1 := by
  cases r with
  | nil => exact absurd rfl hr
  | cons c r =>
    cases a with
    | nil => simp at hh
    | cons d a =>
      have hcd : c = d := by
        rw [List.head?_cons, List.head?_cons] at hh
        exact Option.some.inj hh
      subst hcd
      rw [count_shared_cons, if_pos rfl]
      rcases hlen with h1 | h1
      · have : r = [] := by
          rw [List.length_cons] at h1
          exact List.length_eq_zero.mp (by omega)
        subst this
        rw [count_shared_nil_left]
      · have : a = [] := by
          rw [List.length_cons] at h1
          exact List.length_eq_zero.mp (by omega)
        subst this
        rw [count_shared_nil_right]

/-- The last character of a take, read off the reversed string. -/
theorem getLast?_take_eq (l : List Char) (n : Nat) :
    (l.take n).getLast? = l.reverse[l.length - n]? := by
  rw [← List.head?_reverse, List.reverse_take, List.head?_drop]

/-- The validation regex matches exactly the non-empty all-allowed strings. -/
theorem regex_alleles_match_iff (s : List Char) :
    regex_alleles_match s = true ↔ s ≠ [] ∧ ∀ c ∈ s, c ∈ ALLOWED_SYMBOLS := by
  simp [regex_alleles_match, List.all_eq_true, List.isEmpty_iff]

/-! ### Structure of the trailing trim -/

/-- The trailing trim keeps exactly `length - t` leading characters of each
string, `t` being the trim count of the specification. -/
theorem trim_trailing_eq_take (R A : List Char) (hR : R ≠ []) (hA : A ≠ []) :
    trim_trailing_shared_bases R A =
      (R.take (R.length - specTrailingTrimCount R A),
       A.take (A.length - specTrailingTrimCount R A)) := by
  have hsR : count_shared R.reverse A.reverse ≤ R.length := by
    have h := count_shared_le_left R.reverse A.reverse
    rwa [List.length_reverse] at h
  have hsA : count_shared R.reverse A.reverse ≤ A.length := by
    have h := count_shared_le_right R.reverse A.reverse
    rwa [List.length_reverse] at h
  have hRlen : 0 < R.length := List.length_pos.mpr hR
  have hAlen : 0 < A.length := List.length_pos.mpr hA
  simp only [trim_trailing_shared_bases, specTrailingTrimCount, sharedSuffixLen]
  by_cases hb : R.length - count_shared R.reverse A.reverse = 0 ∨
      A.length - count_shared R.reverse A.reverse = 0
  · rw [if_pos hb, if_pos (by omega)]
    have h1 : R.length - count_shared R.reverse A.reverse + 1 =
        R.length - (count_shared R.reverse A.reverse - 1) := by omega
    have h2 : A.length - count_shared R.reverse A.reverse + 1 =
        A.length - (count_shared R.reverse A.reverse - 1) := by omega
    rw [h1, h2]
  · rw [if_neg hb, if_neg (by omega)]

/-- The trailing trim count of the specification never removes a whole string. -/
theorem specTrailingTrimCount_lt (R A : List Char) (hR : R ≠ []) (hA : A ≠ []) :
    specTrailingTrimCount R A < R.length ∧ specTrailingTrimCount R A < A.length := by
  have hsR : count_shared R.reverse A.reverse ≤ R.length := by
    have h := count_shared_le_left R.reverse A.reverse
    rwa [List.length_reverse] at h
  have hsA : count_shared R.reverse A.reverse ≤ A.length := by
    have h := count_shared_le_right R.reverse A.reverse
    rwa [List.length_reverse] at h
  have hRlen : 0 < R.length := List.length_pos.mpr hR
  have hAlen : 0 < A.length := List.length_pos.mpr hA
  simp only [specTrailingTrimCount, sharedSuffixLen]
  by_cases hb : count_shared R.reverse A.reverse = R.length ∨
      count_shared R.reverse A.reverse = A.length
  · rw [if_pos hb]; omega
  · rw [if_neg hb]; omega

/-- After the trailing trim the two strings either end in different
characters, or end in the same character with one of them reduced to a single
character (the retained anchor). -/
theorem trailing_out_lastChar (R A : List Char) (hR : R ≠ []) (hA : A ≠ []) :
    ((trim_trailing_shared_bases R A).1.getLast? ≠
        (trim_trailing_shared_bases R A).2.getLast?) ∨
      ((trim_trailing_shared_bases R A).1.getLast? =
          (trim_trailing_shared_bases R A).2.getLast? ∧
        ((trim_trailing_shared_bases R A).1.length = 1 ∨
          (trim_trailing_shared_bases R A).2.length = 1)) := by
  have hsR : count_shared R.reverse A.reverse ≤ R.length := by
    have h := count_shared_le_left R.reverse A.reverse
    rwa [List.length_reverse] at h
  have hsA : count_shared R.reverse A.reverse ≤ A.length := by
    have h := count_shared_le_right R.reverse A.reverse
    rwa [List.length_reverse] at h
  have hRlen : 0 < R.length := List.length_pos.mpr hR
  have hAlen : 0 < A.length := List.length_pos.mpr hA
  rw [trim_trailing_eq_take R A hR hA]
  simp only [specTrailingTrimCount, sharedSuffixLen]
  by_cases hb : count_shared R.reverse A.reverse = R.length ∨
      count_shared R.reverse A.reverse = A.length
  · -- boundary: one character is kept and it is shared
    right
    rw [if_pos hb]
    have hs1 : 1 ≤ count_shared R.reverse A.reverse := by omega
    constructor
    · rw [getLast?_take_eq, getLast?_take_eq]
      have hRidx : R.length - (R.length - (count_shared R.reverse A.reverse - 1)) =
          count_shared R.reverse A.reverse - 1 := by omega
      have hAidx : A.length - (A.length - (count_shared R.reverse A.reverse - 1)) =
          count_shared R.reverse A.reverse - 1 := by omega
      rw [hRidx, hAidx]
      exact count_shared_getElem R.reverse A.reverse _ (by omega)
    · rcases hb with hb | hb
      · left
        rw [List.length_take]
        omega
      · right
        rw [List.length_take]
        omega
  · -- no boundary: the shared count stopped at a genuine mismatch
    left
    rw [if_neg hb]
    rw [getLast?_take_eq, getLast?_take_eq]
    have hRidx : R.length - (R.length - count_shared R.reverse A.reverse) =
        count_shared R.reverse A.reverse := by omega
    have hAidx : A.length - (A.length - count_shared R.reverse A.reverse) =
        count_shared R.reverse A.reverse := by omega
    rw [hRidx, hAidx]
    exact count_shared_mismatch R.reverse A.reverse
      (by rw [List.length_reverse]; omega) (by rw [List.length_reverse]; omega)

/-! ### Structure of the leading trim -/

/-- The leading trim drops exactly the trim count of the specification from both
strings and adds it to the position in u64 arithmetic. -/
theorem trim_leading_eq (p : Nat) (r a : List Char) :
    trim_leading_shared_bases p r a =
      ((p + specLeadingTrimCount r a) % U64_MOD,
       r.drop (specLeadingTrimCount r a), a.drop (specLeadingTrimCount r a)) := rfl

/-- The leading trim count of the specification never removes a whole string. -/
theorem specLeadingTrimCount_lt (r a : List Char) (hr : r ≠ []) (ha : a ≠ []) :
    specLeadingTrimCount r a < r.length ∧ specLeadingTrimCount r a < a.length := by
  have hsr := count_shared_le_left r a
  have hsa := count_shared_le_right r a
  have hrlen : 0 < r.length := List.length_pos.mpr hr
  have halen : 0 < a.length := List.length_pos.mpr ha
  simp only [specLeadingTrimCount, sharedPrefixLen]
  by_cases hb : count_shared r a = r.length ∨ count_shared r a = a.length
  · rw [if_pos hb]; omega
  · rw [if_neg hb]; omega

/-- After the leading trim the two strings either start with different
characters, or start with the same character with one of them reduced to a
single character (the retained anchor). -/
theorem leading_out_headChar (r a : List Char) (hr : r ≠ []) (ha : a ≠ []) :
    ((r.drop (specLeadingTrimCount r a)).head? ≠
        (a.drop (specLeadingTrimCount r a)).head?) ∨
      ((r.drop (specLeadingTrimCount r a)).head? =
          (a.drop (specLeadingTrimCount r a)).head? ∧
        ((r.drop (specLeadingTrimCount r a)).length = 1 ∨
          (a.drop (specLeadingTrimCount r a)).length = 1)) := by
  have hsr := count_shared_le_left r a
  have hsa := count_shared_le_right r a
  have hrlen : 0 < r.length := List.length_pos.mpr hr
  have halen : 0 < a.length := List.length_pos.mpr ha
  simp only [specLeadingTrimCount, sharedPrefixLen]
  by_cases hb : count_shared r a = r.length ∨ count_shared r a = a.length
  · right
    rw [if_pos hb]
    have hs1 : 1 ≤ count_shared r a := by omega
    constructor
    · rw [List.head?_drop, List.head?_drop]
      exact count_shared_getElem r a _ (by omega)
    · rcases hb with hb | hb
      · left
        rw [List.length_drop]
        omega
      · right
        rw [List.length_drop]
        omega
  · left
    rw [if_neg hb]
    rw [List.head?_drop, List.head?_drop]
    exact count_shared_mismatch r a (by omega) (by omega)

/-! ### Fixed points of the two trims -/

/-- A pair whose last characters differ, or whose last characters agree while
one side is a single character, is left unchanged by the trailing trim. -/
theorem trim_trailing_fixed (r a : List Char) (hr : r ≠ []) (ha : a ≠ [])
    (h : r.getLast? ≠ a.getLast? ∨
      (r.getLast? = a.getLast? ∧ (r.length = 1 ∨ a.length = 1))) :
    trim_trailing_shared_bases r a = (r, a) := by
  have hrlen : 0 < r.length := List.length_pos.mpr hr
  have halen : 0 < a.length := List.length_pos.mpr ha
  rcases h with h | ⟨heq, hlen⟩
  · have hs : count_shared r.reverse a.reverse = 0 := by
      apply count_shared_eq_zero_of_head_ne
      rw [List.head?_reverse, List.head?_reverse]
      exact h
    simp only [trim_trailing_shared_bases, hs, Nat.sub_zero]
    rw [if_neg (by omega)]
    rw [List.take_length, List.take_length]
  · have hs : count_shared r.reverse a.reverse = 1 := by
      apply count_shared_eq_one
      · simp [hr]
      · rw [List.head?_reverse, List.head?_reverse]
        exact heq
      · rw [List.length_reverse, List.length_reverse]
        exact hlen
    simp only [trim_trailing_shared_bases, hs]
    rw [if_pos (by omega)]
    have h1 : r.length - 1 + 1 = r.length := by omega
    have h2 : a.length - 1 + 1 = a.length := by omega
    rw [h1, h2, List.take_length, List.take_length]

/-- A pair whose first characters differ, or whose first characters agree
while one side is a single character, is left unchanged by the leading trim
(for any representable position). -/
theorem trim_leading_fixed (p : Nat) (r a : List Char) (hr : r ≠ []) (ha : a ≠ [])
    (hp : p < U64_MOD)
    (h : r.head? ≠ a.head? ∨
      (r.head? = a.head? ∧ (r.length = 1 ∨ a.length = 1))) :
    trim_leading_shared_bases p r a = (p, r, a) := by
  have hrlen : 0 < r.length := List.length_pos.mpr hr
  have halen : 0 < a.length := List.length_pos.mpr ha
  rcases h with h | ⟨heq, hlen⟩
  · have hs : count_shared r a = 0 := count_shared_eq_zero_of_head_ne r a h
    simp only [trim_leading_shared_bases, hs]
    rw [if_neg (by omega)]
    simp [Nat.mod_eq_of_lt hp]
  · have hs : count_shared r a = 1 := count_shared_eq_one r a hr heq hlen
    simp only [trim_leading_shared_bases, hs]
    rw [if_pos (by omega)]
    simp [Nat.mod_eq_of_lt hp]

/-! ### Unfolding `normalize` on validated input -/

theorem head?_take_pos (l : List Char) (n : Nat) (hn : 0 < n) :
    (l.take n).head? = l.head? := by
  cases l with
  | nil => simp
  | cons c l =>
    cases n with
    | zero => omega
    | succ n => simp

/-- Dropping fewer characters than the length preserves the last
character. -/
theorem getLast?_drop_of_lt (l : List Char) (k : Nat) (h : k < l.length) :
    (l.drop k).getLast? = l.getLast? := by
  rw [← List.head?_reverse, List.reverse_drop, head?_take_pos _ _ (by omega),
    List.head?_reverse]

/-- On validated input, `normalize` returns the two trims applied in
sequence. -/
theorem normalize_eq_ok (p : Nat) (R A : List Char) (hR : R ≠ []) (hA : A ≠ [])
    (hvR : ∀ c ∈ R, c ∈ ALLOWED_SYMBOLS) (hvA : ∀ c ∈ A, c ∈ ALLOWED_SYMBOLS) :
    normalize p R A = Except.ok (trim_leading_shared_bases p
      (trim_trailing_shared_bases R A).1 (trim_trailing_shared_bases R A).2) := by
  have hregR : regex_alleles_match R = true := (regex_alleles_match_iff R).mpr ⟨hR, hvR⟩
  have hregA : regex_alleles_match A = true := (regex_alleles_match_iff A).mpr ⟨hA, hvA⟩
  unfold normalize
  rw [if_neg (by rw [List.length_eq_zero]; exact hR),
    if_neg (by rw [List.length_eq_zero]; exact hA),
    if_neg (by rw [hregR]; simp),
    if_neg (by rw [hregA]; simp)]

/-- An `ok` result of `normalize` implies every validation passed. -/
theorem normalize_ok_valid (p : Nat) (R A : List Char)
    (res : Nat × List Char × List Char)
    (h : normalize p R A = Except.ok res) :
    R ≠ [] ∧ A ≠ [] ∧ (∀ c ∈ R, c ∈ ALLOWED_SYMBOLS) ∧
      (∀ c ∈ A, c ∈ ALLOWED_SYMBOLS) := by
  unfold normalize at h
  by_cases h1 : R.length = 0
  · rw [if_pos h1] at h; exact absurd h (by simp)
  rw [if_neg h1] at h
  by_cases h2 : A.length = 0
  · rw [if_pos h2] at h; exact absurd h (by simp)
  rw [if_neg h2] at h
  by_cases h3 : regex_alleles_match R = false
  · rw [if_pos h3] at h; exact absurd h (by simp)
  rw [if_neg h3] at h
  by_cases h4 : regex_alleles_match A = false
  · rw [if_pos h4] at h; exact absurd h (by simp)
  have hregR : regex_alleles_match R = true := by
    revert h3; cases regex_alleles_match R <;> simp
  have hregA : regex_alleles_match A = true := by
    revert h4; cases regex_alleles_match A <;> simp
  have hR := (regex_alleles_match_iff R).mp hregR
  have hA := (regex_alleles_match_iff A).mp hregA
  exact ⟨hR.1, hA.1, hR.2, hA.2⟩

/-- Normal form of a successful `normalize`: the result is non-empty on both
sides, draws its characters from the inputs, carries a representable
position, and is a fixed point of both trims. -/
theorem normalize_output_normal (p : Nat) (R A : List Char)
    (hR : R ≠ []) (hA : A ≠ [])
    (hvR : ∀ c ∈ R, c ∈ ALLOWED_SYMBOLS) (hvA : ∀ c ∈ A, c ∈ ALLOWED_SYMBOLS) :
    ∃ p' r' a', normalize p R A = Except.ok (p', r', a') ∧
      r' ≠ [] ∧ a' ≠ [] ∧ (∀ c ∈ r', c ∈ R) ∧ (∀ c ∈ a', c ∈ A) ∧
      p' < U64_MOD ∧
      trim_trailing_shared_bases r' a' = (r', a') ∧
      trim_leading_shared_bases p' r' a' = (p', r', a') := by
  have htlt := specTrailingTrimCount_lt R A hR hA
  have htt := trim_trailing_eq_take R A hR hA
  set r1 := (trim_trailing_shared_bases R A).1 with hr1def
  set a1 := (trim_trailing_shared_bases R A).2 with ha1def
  have hr1 : r1 = R.take (R.length - specTrailingTrimCount R A) := by
    rw [hr1def, htt]
  have ha1 : a1 = A.take (A.length - specTrailingTrimCount R A) := by
    rw [ha1def, htt]
  have hr1len : r1.length = R.length - specTrailingTrimCount R A := by
    rw [hr1, List.length_take]; omega
  have ha1len : a1.length = A.length - specTrailingTrimCount R A := by
    rw [ha1, List.length_take]; omega
  have hr1ne : r1 ≠ [] := by
    rw [← List.length_pos, hr1len]; omega
  have ha1ne : a1 ≠ [] := by
    rw [← List.length_pos, ha1len]; omega
  have hlast := trailing_out_lastChar R A hR hA
  rw [← hr1def, ← ha1def] at hlast
  have hklt := specLeadingTrimCount_lt r1 a1 hr1ne ha1ne
  set k := specLeadingTrimCount r1 a1 with hkdef
  refine ⟨(p + k) % U64_MOD, r1.drop k, a1.drop k, ?_, ?_, ?_, ?_, ?_, ?_, ?_, ?_⟩
  · rw [normalize_eq_ok p R A hR hA hvR hvA, ← hr1def, ← ha1def, trim_leading_eq,
      ← hkdef]
  · rw [← List.length_pos, List.length_drop]; omega
  · rw [← List.length_pos, List.length_drop]; omega
  · intro c hc
    have h1 : c ∈ r1 := List.drop_subset _ _ hc
    rw [hr1] at h1
    exact List.take_subset _ _ h1
  · intro c hc
    have h1 : c ∈ a1 := List.drop_subset _ _ hc
    rw [ha1] at h1
    exact List.take_subset _ _ h1
  · exact Nat.mod_lt _ (by norm_num [U64_MOD])
  · apply trim_trailing_fixed
    · rw [← List.length_pos, List.length_drop]; omega
    · rw [← List.length_pos, List.length_drop]; omega
    · rcases hlast with hne | ⟨heq, hlen⟩
      · left
        rw [getLast?_drop_of_lt r1 k hklt.1, getLast?_drop_of_lt a1 k hklt.2]
        exact hne
      · have hk0 : k = 0 := by omega
        rw [hk0, List.drop_zero, List.drop_zero]
        right
        exact ⟨heq, hlen⟩
  · apply trim_leading_fixed
    · rw [← List.length_pos, List.length_drop]; omega
    · rw [← List.length_pos, List.length_drop]; omega
    · exact Nat.mod_lt _ (by norm_num [U64_MOD])
    · exact leading_out_headChar r1 a1 hr1ne ha1ne

/-! ### Error paths of `normalize` -/

theorem normalize_empty_ref (p : Nat) (A : List Char) :
    normalize p [] A = Except.error Error.RefBasesEmptyError := by
  unfold normalize
  rw [if_pos (show ([] : List Char).length = 0 from rfl)]

theorem normalize_empty_alt (p : Nat) (R : List Char) (hR : R ≠ []) :
    normalize p R [] = Except.error Error.AltBasesEmptyError := by
  unfold normalize
  rw [if_neg (by rw [List.length_eq_zero]; exact hR),
    if_pos (show ([] : List Char).length = 0 from rfl)]

theorem normalize_invalid_ref (p : Nat) (R A : List Char) (hR : R ≠ [])
    (hA : A ≠ []) (hinv : ¬ ∀ c ∈ R, c ∈ ALLOWED_SYMBOLS) :
    normalize p R A = Except.error (Error.RefBasesInvalidSymbolError R) := by
  have hreg : regex_alleles_match R = false := by
    cases hb : regex_alleles_match R
    · rfl
    · exact absurd ((regex_alleles_match_iff R).mp hb).2 hinv
  unfold normalize
  rw [if_neg (by rw [List.length_eq_zero]; exact hR),
    if_neg (by rw [List.length_eq_zero]; exact hA), if_pos hreg]

theorem normalize_invalid_alt (p : Nat) (R A : List Char) (hR : R ≠ [])
    (hA : A ≠ []) (hvR : ∀ c ∈ R, c ∈ ALLOWED_SYMBOLS)
    (hinv : ¬ ∀ c ∈ A, c ∈ ALLOWED_SYMBOLS) :
    normalize p R A = Except.error (Error.AltBasesInvalidSymbolError A) := by
  have hregR : regex_alleles_match R = true := (regex_alleles_match_iff R).mpr ⟨hR, hvR⟩
  have hregA : regex_alleles_match A = false := by
    cases hb : regex_alleles_match A
    · rfl
    · exact absurd ((regex_alleles_match_iff A).mp hb).2 hinv
  unfold normalize
  rw [if_neg (by rw [List.length_eq_zero]; exact hR),
    if_neg (by rw [List.length_eq_zero]; exact hA),
    if_neg (by rw [hregR]; simp), if_pos hregA]

/-- First characters of two strings agree exactly when the one-character
prefixes agree (the Rust `get(0..1)` comparison). -/
theorem take_one_eq_iff (R A : List Char) :
    R.take 1 = A.take 1 ↔ R.head? = A.head? := by
  cases R <;> cases A <;> simp

/-! ### The claims -/

/-- C1: on validated input the trailing trim removes `t` trailing symbols
from each string, where `t = s - 1` if the shared-suffix count `s` equals the
length of the reference or of the alternate and `t = s` otherwise; the
position is untouched (the function does not even receive it). -/
theorem claim_trailing_trim_spec (R A : List Char) (hR : R ≠ []) (hA : A ≠ [])
    (hvR : ∀ c ∈ R, c ∈ ALLOWED_SYMBOLS) (hvA : ∀ c ∈ A, c ∈ ALLOWED_SYMBOLS) :
    trim_trailing_shared_bases R A =
      (R.take (R.length - specTrailingTrimCount R A),
       A.take (A.length - specTrailingTrimCount R A)) :=
  trim_trailing_eq_take R A hR hA

theorem claim_trailing_trim_spec_witness :
    trim_trailing_shared_bases ['A', 'T'] ['A', 'T', 'A', 'T'] =
      (['A', 'T'].take (['A', 'T'].length - specTrailingTrimCount ['A', 'T'] ['A', 'T', 'A', 'T']),
       ['A', 'T', 'A', 'T'].take
         (['A', 'T', 'A', 'T'].length - specTrailingTrimCount ['A', 'T'] ['A', 'T', 'A', 'T'])) :=
  claim_trailing_trim_spec ['A', 'T'] ['A', 'T', 'A', 'T']
    (by decide) (by decide) (by decide) (by decide)

/-- C2: on validated input `normalize` returns the trailing-trimmed pair with
`k` further leading symbols removed from both strings and `k` added (in u64
arithmetic) to the position, where `k = p - 1` if the shared-prefix count `p`
of the trailing-trimmed pair equals the length of either of its strings and
`k = p` otherwise. -/
theorem claim_leading_trim_spec (p : Nat) (R A : List Char)
    (hR : R ≠ []) (hA : A ≠ [])
    (hvR : ∀ c ∈ R, c ∈ ALLOWED_SYMBOLS) (hvA : ∀ c ∈ A, c ∈ ALLOWED_SYMBOLS) :
    normalize p R A = Except.ok
      ((p + specLeadingTrimCount (trim_trailing_shared_bases R A).1
          (trim_trailing_shared_bases R A).2) % U64_MOD,
       (trim_trailing_shared_bases R A).1.drop
         (specLeadingTrimCount (trim_trailing_shared_bases R A).1
           (trim_trailing_shared_bases R A).2),
       (trim_trailing_shared_bases R A).2.drop
         (specLeadingTrimCount (trim_trailing_shared_bases R A).1
           (trim_trailing_shared_bases R A).2)) := by
  rw [normalize_eq_ok p R A hR hA hvR hvA, trim_leading_eq]

theorem claim_leading_trim_spec_witness :
    normalize 1000 ['A', 'T'] ['A', 'T', 'A'] = Except.ok
      ((1000 + specLeadingTrimCount
          (trim_trailing_shared_bases ['A', 'T'] ['A', 'T', 'A']).1
          (trim_trailing_shared_bases ['A', 'T'] ['A', 'T', 'A']).2) % U64_MOD,
       (trim_trailing_shared_bases ['A', 'T'] ['A', 'T', 'A']).1.drop
         (specLeadingTrimCount
           (trim_trailing_shared_bases ['A', 'T'] ['A', 'T', 'A']).1
           (trim_trailing_shared_bases ['A', 'T'] ['A', 'T', 'A']).2),
       (trim_trailing_shared_bases ['A', 'T'] ['A', 'T', 'A']).2.drop
         (specLeadingTrimCount
           (trim_trailing_shared_bases ['A', 'T'] ['A', 'T', 'A']).1
           (trim_trailing_shared_bases ['A', 'T'] ['A', 'T', 'A']).2)) :=
  claim_leading_trim_spec 1000 ['A', 'T'] ['A', 'T', 'A']
    (by decide) (by decide) (by decide) (by decide)

/-- C3: for every position and every pair of non-empty strings over the
allowed alphabet, `normalize` succeeds, and both returned strings are
non-empty. -/
theorem claim_normalize_nonempty (p : Nat) (R A : List Char)
    (hR : R ≠ []) (hA : A ≠ [])
    (hvR : ∀ c ∈ R, c ∈ ALLOWED_SYMBOLS) (hvA : ∀ c ∈ A, c ∈ ALLOWED_SYMBOLS) :
    ∃ p' r' a', normalize p R A = Except.ok (p', r', a') ∧ r' ≠ [] ∧ a' ≠ [] := by
  obtain ⟨p', r', a', heq, hr, ha, -, -, -, -, -⟩ :=
    normalize_output_normal p R A hR hA hvR hvA
  exact ⟨p', r', a', heq, hr, ha⟩

theorem claim_normalize_nonempty_witness :
    ∃ p' r' a', normalize 1000 ['G', 'G'] ['G'] = Except.ok (p', r', a') ∧
      r' ≠ [] ∧ a' ≠ [] :=
  claim_normalize_nonempty 1000 ['G', 'G'] ['G']
    (by decide) (by decide) (by decide) (by decide)

/-- C4 (counterexample): for the identical pair "AA"/"AA" of length 2 at
position 1000, `normalize` returns position 1000, not
`1000 + (2 - 1) = 1001` as the claim demands. -/
theorem claim_identical_counterexample :
    normalize 1000 ['A', 'A'] ['A', 'A'] = Except.ok (1000, ['A'], ['A']) ∧
      (1000 : Nat) ≠ 1000 + (2 - 1) := by
  constructor
  · rfl
  · decide

/-- C4 (amended): a validated identical pair normalizes to the same
single-character string on both sides (the first symbol), with the position
unchanged. -/
theorem claim_identical_strings (p : Nat) (R : List Char)
    (hp : p < U64_MOD) (hR : R ≠ []) (hv : ∀ c ∈ R, c ∈ ALLOWED_SYMBOLS) :
    normalize p R R = Except.ok (p, R.take 1, R.take 1) ∧ (R.take 1).length = 1 := by
  have hRlen : 0 < R.length := List.length_pos.mpr hR
  have hlen1 : (R.take 1).length = 1 := by
    rw [List.length_take]
    omega
  have htt : trim_trailing_shared_bases R R = (R.take 1, R.take 1) := by
    have hs : count_shared R.reverse R.reverse = R.length := by
      rw [count_shared_self, List.length_reverse]
    simp only [trim_trailing_shared_bases, hs, Nat.sub_self]
    simp
  have htake : R.take 1 ≠ [] := by
    rw [← List.length_pos, hlen1]
    omega
  have htl : trim_leading_shared_bases p (R.take 1) (R.take 1) =
      (p, R.take 1, R.take 1) := by
    apply trim_leading_fixed p _ _ htake htake hp
    right
    exact ⟨rfl, Or.inl hlen1⟩
  refine ⟨?_, hlen1⟩
  rw [normalize_eq_ok p R R hR hR hv hv, htt]
  simpa using htl

theorem claim_identical_strings_witness :
    normalize 1000 ['A'] ['A'] = Except.ok (1000, ['A'].take 1, ['A'].take 1) ∧
      (['A'].take 1).length = 1 :=
  claim_identical_strings 1000 ['A'] (by norm_num [U64_MOD]) (by decide) (by decide)

/-- C5: `normalize` fails exactly when a validation condition holds: empty
reference, empty alternate, a character of the reference outside the allowed
alphabet, or such a character in the alternate; each condition maps to its
own error variant, the invalid-symbol variants carrying the offending
string. -/
theorem claim_error_characterization (p : Nat) (R A : List Char) :
    ((∃ e, normalize p R A = Except.error e) ↔
      (R = [] ∨ A = [] ∨ (∃ c ∈ R, c ∉ ALLOWED_SYMBOLS) ∨
        (∃ c ∈ A, c ∉ ALLOWED_SYMBOLS))) ∧
    (R = [] → normalize p R A = Except.error Error.RefBasesEmptyError) ∧
    (R ≠ [] → A = [] → normalize p R A = Except.error Error.AltBasesEmptyError) ∧
    (R ≠ [] → A ≠ [] → (∃ c ∈ R, c ∉ ALLOWED_SYMBOLS) →
      normalize p R A = Except.error (Error.RefBasesInvalidSymbolError R)) ∧
    (R ≠ [] → A ≠ [] → (∀ c ∈ R, c ∈ ALLOWED_SYMBOLS) →
      (∃ c ∈ A, c ∉ ALLOWED_SYMBOLS) →
      normalize p R A = Except.error (Error.AltBasesInvalidSymbolError A)) := by
  refine ⟨⟨?_, ?_⟩, ?_, ?_, ?_, ?_⟩
  · intro ⟨e, he⟩
    by_contra hcon
    push_neg at hcon
    obtain ⟨hR, hA, hvR, hvA⟩ := hcon
    rw [normalize_eq_ok p R A hR hA hvR hvA] at he
    exact absurd he (by simp)
  · intro hcond
    rcases hcond with hR | hcond
    · subst hR
      exact ⟨_, normalize_empty_ref p A⟩
    by_cases hR : R = []
    · subst hR
      exact ⟨_, normalize_empty_ref p A⟩
    rcases hcond with hA | hcond
    · subst hA
      exact ⟨_, normalize_empty_alt p R hR⟩
    by_cases hA : A = []
    · subst hA
      exact ⟨_, normalize_empty_alt p R hR⟩
    rcases hcond with hc | hc
    · refine ⟨_, normalize_invalid_ref p R A hR hA ?_⟩
      intro hall
      obtain ⟨c, hcm, hcn⟩ := hc
      exact hcn (hall c hcm)
    · by_cases hvR : ∀ c ∈ R, c ∈ ALLOWED_SYMBOLS
      · refine ⟨_, normalize_invalid_alt p R A hR hA hvR ?_⟩
        intro hall
        obtain ⟨c, hcm, hcn⟩ := hc
        exact hcn (hall c hcm)
      · exact ⟨_, normalize_invalid_ref p R A hR hA hvR⟩
  · intro hR
    subst hR
    exact normalize_empty_ref p A
  · intro hR hA
    subst hA
    exact normalize_empty_alt p R hR
  · intro hR hA hc
    apply normalize_invalid_ref p R A hR hA
    intro hall
    obtain ⟨c, hcm, hcn⟩ := hc
    exact hcn (hall c hcm)
  · intro hR hA hvR hc
    apply normalize_invalid_alt p R A hR hA hvR
    intro hall
    obtain ⟨c, hcm, hcn⟩ := hc
    exact hcn (hall c hcm)

theorem claim_error_characterization_witness :
    normalize 1000 ['A'] ['.'] =
      Except.error (Error.AltBasesInvalidSymbolError ['.']) :=
  (claim_error_characterization 1000 ['A'] ['.']).2.2.2.2
    (by decide) (by decide) (by decide) (by decide)

/-- C6: `variant_type` agrees with the priority-ordered rule list of the
specification; length-mismatched strings with differing first symbols fall
through to `Indel`; identical strings give `none`. -/
theorem claim_variant_type_rules :
    (∀ R A : List Char, variant_type R A = variantTypeSpec R A) ∧
    (∀ R A : List Char, R.length ≠ A.length → R.head? ≠ A.head? →
      variant_type R A = some VariantType.Indel) ∧
    (∀ R : List Char, variant_type R R = none) := by
  refine ⟨?_, ?_, ?_⟩
  · intro R A
    simp only [variant_type, variantTypeSpec, take_one_eq_iff]
  · intro R A h1 h2
    unfold variant_type
    rw [if_neg (by rintro ⟨ha, hb, -⟩; exact h1 (by omega)),
      if_neg (by rintro ⟨hl, -⟩; exact h1 hl),
      if_neg (by rintro ⟨-, -, ht⟩; exact h2 ((take_one_eq_iff R A).mp ht)),
      if_neg (by rintro ⟨-, -, ht⟩; exact h2 ((take_one_eq_iff R A).mp ht)),
      if_pos h1]
  · intro R
    unfold variant_type
    rw [if_neg (by rintro ⟨-, -, h⟩; exact h rfl),
      if_neg (by rintro ⟨-, h⟩; exact h rfl),
      if_neg (by rintro ⟨h1, h2, -⟩; omega),
      if_neg (by rintro ⟨h1, h2, -⟩; omega),
      if_neg (by exact fun h => h rfl)]

theorem claim_variant_type_rules_witness :
    variant_type ['A', 'T'] ['C'] = some VariantType.Indel :=
  claim_variant_type_rules.2.1 ['A', 'T'] ['C'] (by decide) (by decide)

/-- C7: `normalize` is idempotent — re-normalizing a successful output
succeeds and returns that output unchanged. -/
theorem claim_normalize_idempotent (p : Nat) (R A : List Char)
    (p' : Nat) (r' a' : List Char)
    (h : normalize p R A = Except.ok (p', r', a')) :
    normalize p' r' a' = Except.ok (p', r', a') := by
  obtain ⟨hR, hA, hvR, hvA⟩ := normalize_ok_valid p R A _ h
  obtain ⟨q, r2, a2, heq, hr2, ha2, hsubR, hsubA, hqlt, hfixT, hfixL⟩ :=
    normalize_output_normal p R A hR hA hvR hvA
  rw [h] at heq
  simp only [Except.ok.injEq, Prod.mk.injEq] at heq
  obtain ⟨rfl, rfl, rfl⟩ := heq
  rw [normalize_eq_ok p' r' a' hr2 ha2
    (fun c hc => hvR c (hsubR c hc)) (fun c hc => hvA c (hsubA c hc))]
  rw [hfixT]
  simpa using hfixL

theorem claim_normalize_idempotent_witness :
    normalize 1001 ['T'] ['T', 'A'] = Except.ok (1001, ['T'], ['T', 'A']) :=
  claim_normalize_idempotent 1000 ['A', 'T'] ['A', 'T', 'A'] 1001 ['T'] ['T', 'A']
    (by rfl)

/-- C8 (counterexample): with the u64 position at its maximum and a
two-character shared prefix surviving the trailing trim, the wrapping u64
addition makes the returned position smaller than the input position. -/
theorem claim_position_monotone_counterexample :
    normalize (U64_MOD - 1) ['A', 'A', 'T'] ['A', 'A', 'G'] =
      Except.ok (1, ['T'], ['G']) ∧ (1 : Nat) < U64_MOD - 1 := by
  constructor
  · rfl
  · norm_num [U64_MOD]

/-- C8 (amended): whenever the u64 addition cannot wrap — the input position
plus the reference length staying within `2 ^ 64` — the returned position is
at least the input position. -/
theorem claim_position_monotone (p : Nat) (R A : List Char)
    (p' : Nat) (r' a' : List Char)
    (h : normalize p R A = Except.ok (p', r', a'))
    (hbound : p + R.length ≤ U64_MOD) :
    p ≤ p' := by
  obtain ⟨hR, hA, hvR, hvA⟩ := normalize_ok_valid p R A _ h
  have htlt := specTrailingTrimCount_lt R A hR hA
  have htt := trim_trailing_eq_take R A hR hA
  set r1 := (trim_trailing_shared_bases R A).1 with hr1def
  set a1 := (trim_trailing_shared_bases R A).2 with ha1def
  have hr1len : r1.length = R.length - specTrailingTrimCount R A := by
    rw [hr1def, htt, List.length_take]
    omega
  have ha1len : a1.length = A.length - specTrailingTrimCount R A := by
    rw [ha1def, htt, List.length_take]
    omega
  have hr1ne : r1 ≠ [] := by
    rw [← List.length_pos, hr1len]; omega
  have ha1ne : a1 ≠ [] := by
    rw [← List.length_pos, ha1len]; omega
  have hklt := specLeadingTrimCount_lt r1 a1 hr1ne ha1ne
  have heq := normalize_eq_ok p R A hR hA hvR hvA
  rw [h, ← hr1def, ← ha1def, trim_leading_eq] at heq
  simp only [Except.ok.injEq, Prod.mk.injEq] at heq
  obtain ⟨hp', -, -⟩ := heq
  have hklt2 : specLeadingTrimCount r1 a1 < R.length := by omega
  have hlt : p + specLeadingTrimCount r1 a1 < U64_MOD := by omega
  rw [hp', Nat.mod_eq_of_lt hlt]
  omega

theorem claim_position_monotone_witness :
    (1000 : Nat) ≤ 1000 :=
  claim_position_monotone 1000 ['A'] ['T'] 1000 ['A'] ['T'] (by rfl)
    (by norm_num [U64_MOD])

/-- C9: validation failures are reported with a fixed precedence — empty
reference first, then empty alternate (even when the reference is invalid),
then invalid-symbol reference, then invalid-symbol alternate — illustrated by
the two stated examples. -/
theorem claim_error_precedence (p : Nat) :
    (∀ R A : List Char, R = [] →
      normalize p R A = Except.error Error.RefBasesEmptyError) ∧
    (∀ R A : List Char, R ≠ [] → A = [] →
      normalize p R A = Except.error Error.AltBasesEmptyError) ∧
    (∀ R A : List Char, R ≠ [] → A ≠ [] → (∃ c ∈ R, c ∉ ALLOWED_SYMBOLS) →
      normalize p R A = Except.error (Error.RefBasesInvalidSymbolError R)) ∧
    (∀ R A : List Char, R ≠ [] → A ≠ [] → (∀ c ∈ R, c ∈ ALLOWED_SYMBOLS) →
      (∃ c ∈ A, c ∉ ALLOWED_SYMBOLS) →
      normalize p R A = Except.error (Error.AltBasesInvalidSymbolError A)) ∧
    normalize p [] [] = Except.error Error.RefBasesEmptyError ∧
    normalize p ['.'] [] = Except.error Error.AltBasesEmptyError := by
  refine ⟨?_, ?_, ?_, ?_, ?_, ?_⟩
  · intro R A hR
    subst hR
    exact normalize_empty_ref p A
  · intro R A hR hA
    subst hA
    exact normalize_empty_alt p R hR
  · intro R A hR hA hc
    apply normalize_invalid_ref p R A hR hA
    intro hall
    obtain ⟨c, hcm, hcn⟩ := hc
    exact hcn (hall c hcm)
  · intro R A hR hA hvR hc
    apply normalize_invalid_alt p R A hR hA hvR
    intro hall
    obtain ⟨c, hcm, hcn⟩ := hc
    exact hcn (hall c hcm)
  · exact normalize_empty_ref p []
  · exact normalize_empty_alt p ['.'] (by decide)

theorem claim_error_precedence_witness :
    normalize 7 ['.'] [] = Except.error Error.AltBasesEmptyError :=
  (claim_error_precedence 7).2.1 ['.'] [] (by decide) rfl

/-- C10: `variant_type` is total on empty strings as well — one empty and
one non-empty string classify as `Indel`, two empty strings as `none`. -/
theorem claim_variant_type_empty :
    (∀ R : List Char, R ≠ [] → variant_type R [] = some VariantType.Indel) ∧
    (∀ A : List Char, A ≠ [] → variant_type [] A = some VariantType.Indel) ∧
    variant_type ([] : List Char) [] = none := by
  refine ⟨?_, ?_, ?_⟩
  · intro R hR
    have hlen : 0 < R.length := List.length_pos.mpr hR
    unfold variant_type
    rw [if_neg (by rintro ⟨-, h, -⟩; simp at h),
      if_neg (by rintro ⟨h, -⟩; simp at h; exact hR h),
      if_neg (by rintro ⟨-, h, -⟩; simp at h),
      if_neg (by rintro ⟨h, -, -⟩; simp at h),
      if_pos (by simpa using hR)]
  · intro A hA
    have hlen : 0 < A.length := List.length_pos.mpr hA
    unfold variant_type
    rw [if_neg (by rintro ⟨h, -, -⟩; simp at h),
      if_neg (by rintro ⟨h, -⟩; simp at h; exact hA (List.length_eq_zero.mp h.symm)),
      if_neg (by rintro ⟨h, -, -⟩; simp at h),
      if_neg (by rintro ⟨-, h, -⟩; simp at h),
      if_pos (by simp; exact fun hc => hA (List.length_eq_zero.mp hc.symm))]
  · rfl

theorem claim_variant_type_empty_witness :
    variant_type ['A'] [] = some VariantType.Indel :=
  claim_variant_type_empty.1 ['A'] (by decide)

end VcfLib
